import Mathlib

/-!
Verification of the sales-analytics repository.

This file gives a shallow embedding of the core of the repository
(`src/algorithms.py`, `src/utils.py`, `src/analyzer.py`) and proves or refutes
the frozen claims about it.

Modelling conventions:
* Python lists become Lean `List`s; Python `None`/`NaN` cells become `Option.none`.
* Money and quantity values (Python floats) are modelled as exact rationals `Rat`;
  date parsing (`pd.to_datetime`) is an abstract parameter `String → Option String`
  since only parse success/failure matters to the claims.
* Python integers are `Int`, and Python `//` on the nonnegative values that occur
  here agrees with `Int`'s `/`.
-/

/- ===================== src/algorithms.py ===================== -/

/-- Embeds `_merge` from `src/algorithms.py`: the while-loop takes the left
element when `left[i] <= right[j]`, then extends with the remainders. -/
def _merge (le : α → α → Bool) : List α → List α → List α
  | [], ys => ys
  | xs, [] => xs
  | x :: xs, y :: ys =>
    if le x y then x :: _merge le xs (y :: ys) else y :: _merge le (x :: xs) ys

/-- Embeds `merge_sort` from `src/algorithms.py`: return the input when
`len(arr) <= 1`, otherwise split at `mid = len(arr) // 2` and merge the
recursively sorted halves. -/
def merge_sort (le : α → α → Bool) (arr : List α) : List α :=
  if arr.length ≤ 1 then arr
  else
    let mid := arr.length / 2
    _merge le (merge_sort le (arr.take mid)) (merge_sort le (arr.drop mid))
termination_by arr.length
decreasing_by
  · simp only [List.length_take]; omega
  · simp only [List.length_drop]; omega

/-- The comparison is total (the Python `<=` on comparable elements). -/
def LeTotal (le : α → α → Bool) : Prop := ∀ a b, le a b = true ∨ le b a = true

/-- The comparison is transitive. -/
def LeTrans (le : α → α → Bool) : Prop :=
  ∀ a b c, le a b = true → le b c = true → le a c = true

theorem merge_perm (le : α → α → Bool) (l r : List α) :
    (_merge le l r).Perm (l ++ r) := by
  induction l, r using _merge.induct le with
  | case1 ys => simp [_merge]
  | case2 xs h => cases xs <;> simp [_merge]
  | case3 x xs y ys h ih =>
    simpa [_merge, h] using ih.cons x
  | case4 x xs y ys h ih =>
    simp only [_merge, h, if_neg, Bool.false_eq_true, not_false_iff]
    exact (ih.cons y).trans (List.perm_middle).symm

theorem mem_merge {le : α → α → Bool} {l r : List α} {a : α} :
    a ∈ _merge le l r ↔ a ∈ l ∨ a ∈ r := by
  rw [(merge_perm le l r).mem_iff, List.mem_append]

theorem merge_sorted (le : α → α → Bool) (htot : LeTotal le) (htr : LeTrans le)
    (l r : List α) (hl : l.Pairwise (fun a b => le a b = true))
    (hr : r.Pairwise (fun a b => le a b = true)) :
    (_merge le l r).Pairwise (fun a b => le a b = true) := by
  induction l, r using _merge.induct le with
  | case1 ys => simpa [_merge] using hr
  | case2 xs h => cases xs <;> simpa [_merge] using hl
  | case3 x xs y ys h ih =>
    simp only [_merge, h, if_pos]
    refine List.Pairwise.cons ?_ (ih hl.tail hr)
    intro z hz
    rcases mem_merge.mp hz with hz | hz
    · exact List.rel_of_pairwise_cons hl hz
    · rcases List.mem_cons.mp hz with rfl | hz
      · exact h
      · exact htr x y z h (List.rel_of_pairwise_cons hr hz)
  | case4 x xs y ys h ih =>
    simp only [_merge, h, if_neg, Bool.false_eq_true, not_false_iff]
    have hyx : le y x = true := by
      rcases htot x y with hxy | hyx
      · exact absurd hxy (by simp [h])
      · exact hyx
    refine List.Pairwise.cons ?_ (ih hl hr.tail)
    intro z hz
    rcases mem_merge.mp hz with hz | hz
    · rcases List.mem_cons.mp hz with rfl | hz
      · exact hyx
      · exact htr y x z hyx (List.rel_of_pairwise_cons hl hz)
    · exact List.rel_of_pairwise_cons hr hz

theorem merge_sort_perm (le : α → α → Bool) (l : List α) :
    (merge_sort le l).Perm l := by
  induction l using merge_sort.induct le with
  | case1 l h => rw [merge_sort, if_pos h]
  | case2 l h mid ih1 ih2 =>
    rw [merge_sort, if_neg h]
    refine ((merge_perm le _ _).trans ?_)
    have := (ih1.append ih2)
    simpa [List.take_append_drop] using this

theorem mem_merge_sort {le : α → α → Bool} {l : List α} {a : α} :
    a ∈ merge_sort le l ↔ a ∈ l :=
  (merge_sort_perm le l).mem_iff

theorem merge_sort_sorted (le : α → α → Bool) (htot : LeTotal le) (htr : LeTrans le)
    (l : List α) : (merge_sort le l).Pairwise (fun a b => le a b = true) := by
  induction l using merge_sort.induct le with
  | case1 l h =>
    rw [merge_sort, if_pos h]
    match l, h with
    | [], _ => exact List.Pairwise.nil
    | [a], _ => simp
  | case2 l h mid ih1 ih2 =>
    rw [merge_sort, if_neg h]
    exact merge_sorted le htot htr _ _ ih1 ih2

theorem merge_filter (le : α → α → Bool) (htr : LeTrans le) (p : α → Bool)
    (hp : ∀ a b, p a = true → p b = true → le a b = true) :
    ∀ l r : List α, l.Pairwise (fun a b => le a b = true) →
      (_merge le l r).filter p = l.filter p ++ r.filter p := by
  intro l r
  induction l, r using _merge.induct le with
  | case1 ys => intro _; simp [_merge]
  | case2 xs h => intro _; cases xs <;> simp [_merge]
  | case3 x xs y ys h ih =>
    intro hl
    simp only [_merge, h, if_pos]
    rcases hpx : p x with _ | _
    · have h1 : (x :: _merge le xs (y :: ys)).filter p = (_merge le xs (y :: ys)).filter p :=
        List.filter_cons_of_neg (by simp [hpx])
      have h2 : (x :: xs).filter p = xs.filter p := List.filter_cons_of_neg (by simp [hpx])
      rw [h1, ih hl.tail, h2]
    · have h1 : (x :: _merge le xs (y :: ys)).filter p = x :: (_merge le xs (y :: ys)).filter p :=
        List.filter_cons_of_pos (by simp [hpx])
      have h2 : (x :: xs).filter p = x :: xs.filter p := List.filter_cons_of_pos (by simp [hpx])
      rw [h1, ih hl.tail, h2, List.cons_append]
  | case4 x xs y ys h ih =>
    intro hl
    simp only [_merge, h, if_neg, Bool.false_eq_true, not_false_iff]
    rcases hpy : p y with _ | _
    · have h1 : (y :: _merge le (x :: xs) ys).filter p = (_merge le (x :: xs) ys).filter p :=
        List.filter_cons_of_neg (by simp [hpy])
      have h2 : (y :: ys).filter p = ys.filter p := List.filter_cons_of_neg (by simp [hpy])
      rw [h1, ih hl, h2]
    · have hxsnil : (x :: xs).filter p = [] := by
        rw [List.filter_eq_nil_iff]
        intro a ha
        rcases List.mem_cons.mp ha with rfl | ha
        · intro hpa
          exact h (hp a y hpa hpy)
        · intro hpa
          exact h (htr x a y (List.rel_of_pairwise_cons hl ha) (hp a y hpa hpy))
      have h1 : (y :: _merge le (x :: xs) ys).filter p = y :: (_merge le (x :: xs) ys).filter p :=
        List.filter_cons_of_pos (by simp [hpy])
      have h2 : (y :: ys).filter p = y :: ys.filter p := List.filter_cons_of_pos (by simp [hpy])
      rw [h1, ih hl, h2, hxsnil]
      simp

theorem merge_sort_filter (le : α → α → Bool) (htot : LeTotal le) (htr : LeTrans le)
    (p : α → Bool) (hp : ∀ a b, p a = true → p b = true → le a b = true)
    (l : List α) : (merge_sort le l).filter p = l.filter p := by
  induction l using merge_sort.induct le with
  | case1 l h => rw [merge_sort, if_pos h]
  | case2 l h mid ih1 ih2 =>
    rw [merge_sort, if_neg h]
    rw [merge_filter le htr p hp _ _ (merge_sort_sorted le htot htr _), ih1, ih2,
      ← List.filter_append, List.take_append_drop]

/-- The relation a stable sort establishes: strictly-before by `le`, or tied by
`le` and already related by `S` (in this development `S` is the relative order
the input list imposes on tied elements). -/
def LexL (le : α → α → Bool) (S : α → α → Prop) (a b : α) : Prop :=
  le a b = true ∧ (le b a = true → S a b)

theorem merge_pairwise_lex (le : α → α → Bool) (htot : LeTotal le) (htr : LeTrans le)
    (S : α → α → Prop) :
    ∀ l r : List α, l.Pairwise (LexL le S) → r.Pairwise (LexL le S) →
      (∀ a ∈ l, ∀ b ∈ r, S a b) → (_merge le l r).Pairwise (LexL le S) := by
  intro l r
  induction l, r using _merge.induct le with
  | case1 ys => intro _ hr _; simpa [_merge] using hr
  | case2 xs h => intro hl _ _; cases xs <;> simpa [_merge] using hl
  | case3 x xs y ys h ih =>
    intro hl hr hcross
    simp only [_merge, h, if_pos]
    refine List.Pairwise.cons ?_ (ih hl.tail hr (fun a ha b hb => hcross a (by simp [ha]) b hb))
    intro z hz
    rcases mem_merge.mp hz with hz | hz
    · exact List.rel_of_pairwise_cons hl hz
    · have hlez : le x z = true := by
        rcases List.mem_cons.mp hz with rfl | hz'
        · exact h
        · exact htr x y z h (List.rel_of_pairwise_cons hr hz').1
      exact ⟨hlez, fun _ => hcross x (by simp) z hz⟩
  | case4 x xs y ys h ih =>
    intro hl hr hcross
    simp only [_merge, h, if_neg, Bool.false_eq_true, not_false_iff]
    have hyx : le y x = true := by
      rcases htot x y with hxy | hyx
      · exact absurd hxy h
      · exact hyx
    refine List.Pairwise.cons ?_ (ih hl hr.tail (fun a ha b hb => hcross a ha b (by simp [hb])))
    intro z hz
    rcases mem_merge.mp hz with hz | hz
    · rcases List.mem_cons.mp hz with rfl | hz'
      · exact ⟨hyx, fun hzy => absurd hzy h⟩
      · refine ⟨htr y x z hyx (List.rel_of_pairwise_cons hl hz').1, fun hzy => ?_⟩
        exact absurd (htr x z y (List.rel_of_pairwise_cons hl hz').1 hzy) h
    · exact List.rel_of_pairwise_cons hr hz

theorem merge_sort_pairwise_lex (le : α → α → Bool) (htot : LeTotal le) (htr : LeTrans le)
    (S : α → α → Prop) (l : List α) (hl : l.Pairwise S) :
    (merge_sort le l).Pairwise (LexL le S) := by
  induction l using merge_sort.induct le with
  | case1 l h =>
    rw [merge_sort, if_pos h]
    match l, h with
    | [], _ => exact List.Pairwise.nil
    | [a], _ => simp
  | case2 l h mid ih1 ih2 =>
    rw [merge_sort, if_neg h]
    have hsplit : (l.take (l.length / 2)).Pairwise S ∧ (l.drop (l.length / 2)).Pairwise S
        ∧ ∀ a ∈ l.take (l.length / 2), ∀ b ∈ l.drop (l.length / 2), S a b :=
      List.pairwise_append.mp (by rwa [List.take_append_drop])
    refine merge_pairwise_lex le htot htr S _ _ (ih1 hsplit.1) (ih2 hsplit.2.1) ?_
    intro a ha b hb
    exact hsplit.2.2 a (mem_merge_sort.mp ha) b (mem_merge_sort.mp hb)

/-- Claim C1: for every finite list and every total, transitive comparison
(the ordering of comparable elements), `merge_sort` returns a permutation of
the input that is non-decreasing; it is stable: for any fixed element `x`, the
sublist of elements tied with `x` under the comparison is returned exactly in
its original relative order; and for input length at most 1 the input is
returned unchanged. -/
theorem merge_sort_spec (le : α → α → Bool) (htot : LeTotal le) (htr : LeTrans le)
    (l : List α) :
    (merge_sort le l).Perm l
    ∧ (merge_sort le l).Pairwise (fun a b => le a b = true)
    ∧ (∀ x : α, (merge_sort le l).filter (fun a => le x a && le a x)
        = l.filter (fun a => le x a && le a x))
    ∧ (l.length ≤ 1 → merge_sort le l = l) := by
  refine ⟨merge_sort_perm le l, merge_sort_sorted le htot htr l, ?_, ?_⟩
  · intro x
    refine merge_sort_filter le htot htr _ ?_ l
    intro a b ha hb
    simp only [Bool.and_eq_true] at ha hb
    exact htr a x b ha.2 hb.1
  · intro hlen
    rw [merge_sort, if_pos hlen]

/-- Witness for C1 at a concrete list with the ordering of naturals. -/
theorem merge_sort_spec_witness :
    (merge_sort Nat.ble [2, 1, 2, 0]).Perm [2, 1, 2, 0]
    ∧ (merge_sort Nat.ble [2, 1, 2, 0]).Pairwise (fun a b => Nat.ble a b = true)
    ∧ (∀ x : Nat, (merge_sort Nat.ble [2, 1, 2, 0]).filter (fun a => Nat.ble x a && Nat.ble a x)
        = [2, 1, 2, 0].filter (fun a => Nat.ble x a && Nat.ble a x))
    ∧ ([2, 1, 2, 0].length ≤ 1 → merge_sort Nat.ble [2, 1, 2, 0] = [2, 1, 2, 0]) :=
  merge_sort_spec Nat.ble
    (fun a b => by simpa [Nat.ble_eq] using Nat.le_total a b)
    (fun a b c hab hbc => by simp only [Nat.ble_eq] at *; omega)
    [2, 1, 2, 0]

/-- Embeds `binary_search`'s loop from `src/algorithms.py`. `lo` and `hi` are
the Python ints; `mid = (lo + hi) // 2` (both are nonnegative whenever the
division is reached from `binary_search`, where Python's `//` agrees with
`Int`'s `/`). Python's `sorted_arr[mid]` is modelled by `List.get?`; the
`none` branch (index out of range, unreachable from `binary_search`) is marked
by the sentinel `-2`. -/
def bsearch_go [LinearOrder α] (arr : List α) (target : α) (lo hi : Int) : Int :=
  if h : lo ≤ hi then
    let mid := (lo + hi) / 2
    match arr.get? mid.toNat with
    | none => -2
    | some v =>
      if v = target then mid
      else if v < target then bsearch_go arr target (mid + 1) hi
      else bsearch_go arr target lo (mid - 1)
  else -1
termination_by (hi + 1 - lo).toNat
decreasing_by
  · omega
  · omega

/-- Embeds `binary_search` from `src/algorithms.py`: bisection with
`lo, hi = 0, len(sorted_arr) - 1`, returning an index or `-1`. -/
def binary_search [LinearOrder α] (sorted_arr : List α) (target : α) : Int :=
  bsearch_go sorted_arr target 0 ((sorted_arr.length : Int) - 1)

theorem bsearch_go_spec [LinearOrder α] (arr : List α) (target : α)
    (hs : arr.Pairwise (· ≤ ·)) :
    ∀ lo hi : Int, 0 ≤ lo → hi < (arr.length : Int) →
      (∀ k : Nat, ((k : Int) < lo ∨ hi < (k : Int)) → arr.get? k ≠ some target) →
      (∃ i : Nat, bsearch_go arr target lo hi = (i : Int) ∧ arr.get? i = some target)
      ∨ (bsearch_go arr target lo hi = -1 ∧ target ∉ arr) := by
  intro lo hi
  induction lo, hi using bsearch_go.induct arr target with
  | case1 lo hi h mid hnone =>
    intro hlo hhi _
    have hnone' : arr.get? (((lo + hi) / 2).toNat) = none := hnone
    exact absurd (List.get?_eq_none.mp hnone') (by omega)
  | case2 lo hi h mid heq =>
    intro hlo hhi _
    have heq' : arr.get? (((lo + hi) / 2).toNat) = some target := heq
    left
    refine ⟨((lo + hi) / 2).toNat, ?_, heq'⟩
    rw [bsearch_go, dif_pos h]
    simp only [heq', if_true]
    omega
  | case3 lo hi h mid v hv hne hlt ih =>
    intro hlo hhi hwin
    have hv' : arr.get? (((lo + hi) / 2).toNat) = some v := hv
    have hres : bsearch_go arr target lo hi
        = bsearch_go arr target ((lo + hi) / 2 + 1) hi := by
      rw [bsearch_go, dif_pos h]
      simp only [hv']
      rw [if_neg hne, if_pos hlt]
    rw [hres]
    refine ih (by omega) hhi ?_
    intro k hk
    rcases hk with hk | hk
    · by_cases hklo : (k : Int) < lo
      · exact hwin k (Or.inl hklo)
      · have hklen : k < arr.length := by omega
        have hmidlen : ((lo + hi) / 2).toNat < arr.length := by omega
        intro hcontra
        have hk_get : arr.get ⟨k, hklen⟩ = target := by
          rw [List.get?_eq_get hklen] at hcontra
          exact Option.some.inj hcontra
        have hv_get : arr.get ⟨((lo + hi) / 2).toNat, hmidlen⟩ = v := by
          rw [List.get?_eq_get hmidlen] at hv'
          exact Option.some.inj hv'
        have hle : arr.get ⟨k, hklen⟩ ≤ arr.get ⟨((lo + hi) / 2).toNat, hmidlen⟩ := by
          rcases Nat.lt_or_ge k (((lo + hi) / 2).toNat) with hlt' | hge
          · exact List.pairwise_iff_get.mp hs ⟨k, hklen⟩ ⟨_, hmidlen⟩ hlt'
          · have : k = ((lo + hi) / 2).toNat := by omega
            subst this
            exact le_refl _
        rw [hk_get, hv_get] at hle
        exact absurd (lt_of_le_of_lt hle hlt) (lt_irrefl target)
    · exact hwin k (Or.inr hk)
  | case4 lo hi h mid v hv hne hnlt ih =>
    intro hlo hhi hwin
    have hv' : arr.get? (((lo + hi) / 2).toNat) = some v := hv
    have hres : bsearch_go arr target lo hi
        = bsearch_go arr target lo ((lo + hi) / 2 - 1) := by
      rw [bsearch_go, dif_pos h]
      simp only [hv']
      rw [if_neg hne, if_neg hnlt]
    rw [hres]
    refine ih hlo (by omega) ?_
    intro k hk
    rcases hk with hk | hk
    · exact hwin k (Or.inl hk)
    · by_cases hkhi : hi < (k : Int)
      · exact hwin k (Or.inr hkhi)
      · have hklen : k < arr.length := by omega
        have hmidlen : ((lo + hi) / 2).toNat < arr.length := by omega
        intro hcontra
        have hk_get : arr.get ⟨k, hklen⟩ = target := by
          rw [List.get?_eq_get hklen] at hcontra
          exact Option.some.inj hcontra
        have hv_get : arr.get ⟨((lo + hi) / 2).toNat, hmidlen⟩ = v := by
          rw [List.get?_eq_get hmidlen] at hv'
          exact Option.some.inj hv'
        have htv : target < v := by
          rcases lt_trichotomy v target with h1 | h1 | h1
          · exact absurd h1 hnlt
          · exact absurd h1 hne
          · exact h1
        have hle : arr.get ⟨((lo + hi) / 2).toNat, hmidlen⟩ ≤ arr.get ⟨k, hklen⟩ := by
          rcases Nat.lt_or_ge (((lo + hi) / 2).toNat) k with hlt' | hge
          · exact List.pairwise_iff_get.mp hs ⟨_, hmidlen⟩ ⟨k, hklen⟩ hlt'
          · have : k = ((lo + hi) / 2).toNat := by omega
            subst this
            exact le_refl _
        rw [hk_get, hv_get] at hle
        exact absurd (lt_of_le_of_lt hle htv) (lt_irrefl v)
  | case5 lo hi h =>
    intro hlo hhi hwin
    right
    refine ⟨by rw [bsearch_go, dif_neg h], ?_⟩
    intro hmem
    obtain ⟨k, hk⟩ := List.get?_of_mem hmem
    exact hwin k (by omega) hk

/-- Claim C5: on a sorted list, `binary_search` returns an index holding the
target when the target occurs (any matching index is allowed), and `-1` when
it does not occur. -/
theorem binary_search_spec [LinearOrder α] (S : List α) (x : α)
    (hs : S.Pairwise (· ≤ ·)) :
    (x ∈ S → ∃ i : Nat, binary_search S x = (i : Int) ∧ S.get? i = some x)
    ∧ (x ∉ S → binary_search S x = -1) := by
  have hmain := bsearch_go_spec S x hs 0 ((S.length : Int) - 1) (by omega) (by omega)
    (by intro k hk; rcases hk with hk | hk
        · omega
        · intro hcontra
          have := List.get?_eq_none.mpr (show S.length ≤ k by omega)
          rw [this] at hcontra
          exact Option.noConfusion hcontra)
  constructor
  · intro hmem
    rcases hmain with h | h
    · exact h
    · exact absurd hmem h.2
  · intro hnmem
    rcases hmain with ⟨i, _, hget⟩ | h
    · exact absurd (List.get?_mem hget) hnmem
    · exact h.1

/-- Witness for C5: target present (3 in [1,3,5]) and absent (4). -/
theorem binary_search_spec_witness :
    (∃ i : Nat, binary_search [1, 3, 5] (3 : Nat) = (i : Int)
      ∧ [1, 3, 5].get? i = some 3)
    ∧ binary_search [1, 3, 5] (4 : Nat) = -1 :=
  ⟨(binary_search_spec [1, 3, 5] 3 (by decide)).1 (by decide),
   (binary_search_spec [1, 3, 5] 4 (by decide)).2 (by decide)⟩

/- ===================== src/utils.py ===================== -/

/-- Python's `str.lower()` (per-character ASCII lowering, which is all the
status vocabulary needs). -/
def pyLower (s : String) : String := ⟨s.data.map Char.toLower⟩

/-- Python's `str.strip()`: drop whitespace from both ends. -/
def pyStrip (s : String) : String :=
  ⟨((s.data.dropWhile Char.isWhitespace).reverse.dropWhile Char.isWhitespace).reverse⟩

/-- Embeds `normalize_status` from `src/utils.py`: `None` in, `None` out;
otherwise trim and lowercase, then look the result up in the three synonym
sets; anything unrecognised yields the unknown sentinel, which in the source
is Python `None` (modelled as `none`). The function is total: it never
raises. -/
def normalize_status (value : Option String) : Option String :=
  match value with
  | none => none
  | some raw =>
    let s := pyLower (pyStrip raw)
    if s = "completed" ∨ s = "complete" ∨ s = "done" then some "completed"
    else if s = "cancelled" ∨ s = "canceled" then some "cancelled"
    else if s = "pending" ∨ s = "in progress" ∨ s = "processing" then some "pending"
    else none

/-- Claim C6: `normalize_status` decides by the trimmed, lowercased input:
the synonym sets `{completed, complete, done}`, `{cancelled, canceled}` and
`{pending, in progress, processing}` map to their canonical statuses, any
other input maps to the unknown sentinel (Python `None`), and the three
cited examples hold. Totality (never raises) is inherent in the definition. -/
theorem normalize_status_spec :
    (∀ raw : String, (pyLower (pyStrip raw) = "completed" ∨ pyLower (pyStrip raw) = "complete"
        ∨ pyLower (pyStrip raw) = "done") → normalize_status (some raw) = some "completed")
    ∧ (∀ raw : String, (pyLower (pyStrip raw) = "cancelled" ∨ pyLower (pyStrip raw) = "canceled")
        → normalize_status (some raw) = some "cancelled")
    ∧ (∀ raw : String, (pyLower (pyStrip raw) = "pending" ∨ pyLower (pyStrip raw) = "in progress"
        ∨ pyLower (pyStrip raw) = "processing") → normalize_status (some raw) = some "pending")
    ∧ (∀ raw : String,
        pyLower (pyStrip raw) ∉ (["completed", "complete", "done", "cancelled", "canceled",
          "pending", "in progress", "processing"] : List String)
        → normalize_status (some raw) = none)
    ∧ normalize_status (some "Complete") = some "completed"
    ∧ normalize_status (some "CANCELED") = some "cancelled"
    ∧ normalize_status (some "xyz") = none := by
  refine ⟨?_, ?_, ?_, ?_, by decide, by decide, by decide⟩
  · intro raw h
    simp only [normalize_status]
    rw [if_pos h]
  · intro raw h
    simp only [normalize_status]
    rcases h with h | h <;> rw [h] <;> decide
  · intro raw h
    simp only [normalize_status]
    rcases h with h | h | h <;> rw [h] <;> decide
  · intro raw h
    simp only [List.mem_cons, List.not_mem_nil, not_or, or_false] at h
    obtain ⟨h1, h2, h3, h4, h5, h6, h7, h8⟩ := h
    simp only [normalize_status]
    rw [if_neg (by tauto), if_neg (by tauto), if_neg (by tauto)]

/-- Witness for C6: a synonym with surrounding whitespace and mixed case, and
an unrecognised status. -/
theorem normalize_status_spec_witness :
    normalize_status (some " Done ") = some "completed"
    ∧ normalize_status (some "foo") = none :=
  ⟨normalize_status_spec.1 " Done " (by decide),
   normalize_status_spec.2.2.2.1 "foo" (by decide)⟩

/- ===================== src/analyzer.py : cleaning ===================== -/

/-- One raw row of the sales table as `SalesAnalyzer.clean_data` sees it.
A `none` field is a missing (NaN/None) cell. The numeric cells hold the
result of the numeric-parsing step (`pd.to_numeric(..., errors="coerce")`
for `quantity`, `parse_money` for `unit_price` and `order_amount`): each
yields a number or a missing marker, modelled as `Option Rat`. -/
structure Row where
  order_id : Option String
  customer_id : Option String
  order_date : Option String
  product_category : Option String
  product_name : Option String
  quantity : Option Rat
  unit_price : Option Rat
  order_amount : Option Rat
  status : Option String
deriving DecidableEq, Repr

/-- Embeds `DropMissingStrategy.apply` from `src/analyzer.py`: keep only rows
in which none of the nine critical fields is missing. -/
def DropMissingStrategy.apply (df : List Row) : List Row :=
  df.filter (fun r => r.order_id.isSome && r.customer_id.isSome && r.order_date.isSome
    && r.product_category.isSome && r.product_name.isSome && r.quantity.isSome
    && r.unit_price.isSome && r.order_amount.isSome && r.status.isSome)

/-- Embeds `FillStatusStrategy.apply` from `src/analyzer.py`:
`df["status"].fillna("pending")`. -/
def FillStatusStrategy.apply (df : List Row) : List Row :=
  df.map (fun r => { r with status := some (r.status.getD "pending") })

/-- Loop of `drop_duplicates`: keep the first occurrence of each element,
`seen` being the elements already emitted. -/
def drop_duplicates_go [DecidableEq α] (seen : List α) : List α → List α
  | [] => []
  | x :: xs =>
    if x ∈ seen then drop_duplicates_go seen xs
    else x :: drop_duplicates_go (x :: seen) xs

/-- Pandas `DataFrame.drop_duplicates()`: remove exact duplicate rows,
keeping the first occurrence. -/
def drop_duplicates [DecidableEq α] (l : List α) : List α := drop_duplicates_go [] l

/-- Steps 1-4 of `SalesAnalyzer.clean_data`: parse the date column
(`to_datetime_series` coerces failures to missing; the parser itself is the
abstract parameter `parseDate`), normalize the status column, and apply the
validity filters `quantity > 0`, `unit_price >= 0`, `order_amount >= 0`.
A pandas comparison against a missing value is false, so rows with missing
numeric cells are dropped by these filters as well. -/
def clean_filtered (parseDate : String → Option String) (df : List Row) : List Row :=
  ((((df.map (fun r => { r with order_date := r.order_date.bind parseDate })).map
      (fun r => { r with status := normalize_status r.status })).filter
      (fun r => match r.quantity with | some q => decide (0 < q) | none => false)).filter
      (fun r => match r.unit_price with | some p => decide (0 ≤ p) | none => false)).filter
      (fun r => match r.order_amount with | some a => decide (0 ≤ a) | none => false)

/-- Steps 1-5 of `SalesAnalyzer.clean_data`: the filters, then
`drop_duplicates`. -/
def clean_deduped (parseDate : String → Option String) (df : List Row) : List Row :=
  drop_duplicates (clean_filtered parseDate df)

/-- Embeds `SalesAnalyzer.clean_data`: filters and duplicate removal, then
the two missing-value strategies in their fixed order (fill status, then drop
critical), then the final `astype` conversions. Of those conversions only
`quantity.astype(int)` changes a value: it truncates the float toward zero,
which equals `Rat.floor` on the positive quantities the filter kept. -/
def clean_data (parseDate : String → Option String) (df : List Row) : List Row :=
  (DropMissingStrategy.apply (FillStatusStrategy.apply (clean_deduped parseDate df))).map
    (fun r => { r with quantity := r.quantity.map (fun q => ((Rat.floor q : Int) : Rat)) })

/-- Claim C4: on a dataset in which rows may be missing only the `status`
field (every other critical field is present in every row), applying
`FillStatusStrategy` and then the critical-field drop strategy keeps every
row: the result has the same row count as the input. -/
theorem fill_then_drop_keeps_rows (df : List Row)
    (h : ∀ r ∈ df, r.order_id.isSome ∧ r.customer_id.isSome ∧ r.order_date.isSome
      ∧ r.product_category.isSome ∧ r.product_name.isSome ∧ r.quantity.isSome
      ∧ r.unit_price.isSome ∧ r.order_amount.isSome) :
    (DropMissingStrategy.apply (FillStatusStrategy.apply df)).length = df.length := by
  rw [DropMissingStrategy.apply, List.filter_eq_self.mpr, FillStatusStrategy.apply,
    List.length_map]
  intro r hr
  rw [FillStatusStrategy.apply] at hr
  obtain ⟨r0, hr0, rfl⟩ := List.mem_map.mp hr
  obtain ⟨h1, h2, h3, h4, h5, h6, h7, h8⟩ := h r0 hr0
  simp_all

/-- A row with every critical field present except `status`. -/
def exRow4 : Row :=
  { order_id := some "o1", customer_id := some "c1", order_date := some "2024-01-02",
    product_category := some "Books", product_name := some "p1", quantity := some 1,
    unit_price := some 10, order_amount := some 10, status := none }

/-- Witness for C4: one row with everything but `status` present. -/
theorem fill_then_drop_keeps_rows_witness :
    (DropMissingStrategy.apply (FillStatusStrategy.apply [exRow4])).length
      = [exRow4].length :=
  fill_then_drop_keeps_rows _ (by decide)

theorem drop_duplicates_go_not_seen [DecidableEq α] :
    ∀ (l seen : List α) (a : α), a ∈ drop_duplicates_go seen l → a ∉ seen := by
  intro l
  induction l with
  | nil => intro seen a h; simp [drop_duplicates_go] at h
  | cons x xs ih =>
    intro seen a h
    rw [drop_duplicates_go] at h
    by_cases hx : x ∈ seen
    · rw [if_pos hx] at h
      exact ih seen a h
    · rw [if_neg hx] at h
      rcases List.mem_cons.mp h with rfl | h
      · exact hx
      · intro hseen
        exact ih (x :: seen) a h (List.mem_cons_of_mem x hseen)

theorem drop_duplicates_go_subset [DecidableEq α] :
    ∀ (l seen : List α) (a : α), a ∈ drop_duplicates_go seen l → a ∈ l := by
  intro l
  induction l with
  | nil => intro seen a h; simpa [drop_duplicates_go] using h
  | cons x xs ih =>
    intro seen a h
    rw [drop_duplicates_go] at h
    by_cases hx : x ∈ seen
    · rw [if_pos hx] at h
      exact List.mem_cons_of_mem x (ih seen a h)
    · rw [if_neg hx] at h
      rcases List.mem_cons.mp h with rfl | h
      · exact List.mem_cons_self a xs
      · exact List.mem_cons_of_mem x (ih (x :: seen) a h)

theorem drop_duplicates_go_nodup [DecidableEq α] :
    ∀ (l seen : List α), (drop_duplicates_go seen l).Nodup := by
  intro l
  induction l with
  | nil => intro seen; simp [drop_duplicates_go]
  | cons x xs ih =>
    intro seen
    rw [drop_duplicates_go]
    by_cases hx : x ∈ seen
    · rw [if_pos hx]
      exact ih seen
    · rw [if_neg hx]
      refine List.Nodup.cons ?_ (ih (x :: seen))
      intro hmem
      exact drop_duplicates_go_not_seen xs (x :: seen) x hmem (List.mem_cons_self x seen)

theorem drop_duplicates_nodup [DecidableEq α] (l : List α) : (drop_duplicates l).Nodup :=
  drop_duplicates_go_nodup l []

theorem drop_duplicates_subset [DecidableEq α] (l : List α) (a : α)
    (h : a ∈ drop_duplicates l) : a ∈ l :=
  drop_duplicates_go_subset l [] a h

theorem normalize_status_range (v : Option String) :
    normalize_status v = some "completed" ∨ normalize_status v = some "cancelled"
    ∨ normalize_status v = some "pending" ∨ normalize_status v = none := by
  match v with
  | none => simp [normalize_status]
  | some raw =>
    rw [normalize_status]
    split_ifs <;> simp

/-- The per-row part of the invariant claim C9 asserts about `clean_data`'s
output rows, with `0 < q` for the quantity as claimed. -/
def C9RowClaim (r : Row) : Prop :=
  r.quantity.any (fun q => decide (q.den = 1) && decide (0 < q)) = true
  ∧ r.unit_price.any (fun p => decide (0 ≤ p)) = true
  ∧ r.order_amount.any (fun a => decide (0 ≤ a)) = true
  ∧ (r.status = some "completed" ∨ r.status = some "cancelled" ∨ r.status = some "pending")
  ∧ r.order_id.isSome = true ∧ r.customer_id.isSome = true ∧ r.order_date.isSome = true
  ∧ r.product_category.isSome = true ∧ r.product_name.isSome = true

/-- The full invariant claim C9 asserts about `clean_data`'s output: every
row satisfies `C9RowClaim` and no two output rows are identical. -/
def C9Claim (out : List Row) : Prop := (∀ r ∈ out, C9RowClaim r) ∧ out.Nodup

/-- Claim C9 (amended): every row returned by `clean_data` has an integer,
nonnegative quantity (the `astype(int)` truncation of a parsed quantity that
was positive, hence 0 exactly when that quantity was a fraction below 1),
present nonnegative unit price and order amount, a status among
completed/cancelled/pending, and no missing critical field; and exact
duplicates are removed at the dedup stage, so the deduplicated intermediate
dataset contains no two identical rows (rows that differed only in a missing
status may still become identical after the later status fill). -/
theorem clean_data_invariants (parseDate : String → Option String) (df : List Row) :
    (∀ r ∈ clean_data parseDate df,
      r.quantity.any (fun q => decide (q.den = 1) && decide (0 ≤ q)) = true
      ∧ r.unit_price.any (fun p => decide (0 ≤ p)) = true
      ∧ r.order_amount.any (fun a => decide (0 ≤ a)) = true
      ∧ (r.status = some "completed" ∨ r.status = some "cancelled" ∨ r.status = some "pending")
      ∧ r.order_id.isSome = true ∧ r.customer_id.isSome = true ∧ r.order_date.isSome = true
      ∧ r.product_category.isSome = true ∧ r.product_name.isSome = true)
    ∧ (clean_deduped parseDate df).Nodup := by
  constructor
  · intro r hr
    rw [clean_data] at hr
    obtain ⟨r1, hr1, rfl⟩ := List.mem_map.mp hr
    rw [DropMissingStrategy.apply, List.mem_filter] at hr1
    obtain ⟨hr1mem, hr1pred⟩ := hr1
    rw [FillStatusStrategy.apply] at hr1mem
    obtain ⟨r2, hr2, rfl⟩ := List.mem_map.mp hr1mem
    have hr2f : r2 ∈ clean_filtered parseDate df := drop_duplicates_subset _ _ hr2
    rw [clean_filtered, List.mem_filter, List.mem_filter, List.mem_filter] at hr2f
    obtain ⟨⟨⟨hr2maps, hq⟩, hp⟩, ha⟩ := hr2f
    simp only [Bool.and_eq_true] at hr1pred
    refine ⟨?_, ?_, ?_, ?_, ?_, ?_, ?_, ?_, ?_⟩
    · rcases hq2 : r2.quantity with _ | q
      · rw [hq2] at hq
        simp at hq
      · rw [hq2] at hq
        rw [decide_eq_true_eq] at hq
        have hfloor : (0 : Int) ≤ Rat.floor q := Rat.le_floor.mpr (by exact_mod_cast hq.le)
        simp [hq2, Rat.den_intCast, hfloor]
    · rcases hp2 : r2.unit_price with _ | p
      · rw [hp2] at hp
        simp at hp
      · rw [hp2] at hp
        rw [decide_eq_true_eq] at hp
        simp [hp2, hp]
    · rcases ha2 : r2.order_amount with _ | a
      · rw [ha2] at ha
        simp at ha
      · rw [ha2] at ha
        rw [decide_eq_true_eq] at ha
        simp [ha2, ha]
    · obtain ⟨r3, hr3, rfl⟩ := List.mem_map.mp hr2maps
      rcases normalize_status_range r3.status with h4 | h4 | h4 | h4 <;> simp [h4]
    · exact hr1pred.1.1.1.1.1.1.1.1
    · exact hr1pred.1.1.1.1.1.1.1.2
    · exact hr1pred.1.1.1.1.1.1.2
    · exact hr1pred.1.1.1.1.1.2
    · exact hr1pred.1.1.1.1.2
  · exact drop_duplicates_nodup _

/-- One half as an explicit reduced fraction, so that kernel evaluation can
process it. -/
def halfQ : Rat := ⟨1, 2, by decide, Nat.coprime_one_left 2⟩

/-- A valid completed row whose quantity is the fraction 1/2. -/
def exRow9a : Row :=
  { order_id := some "a", customer_id := some "c1", order_date := some "2024-01-05",
    product_category := some "A", product_name := some "p", quantity := some halfQ,
    unit_price := some 1, order_amount := some 1, status := some "completed" }

/-- A row missing only its status. -/
def exRow9b : Row :=
  { order_id := some "b", customer_id := some "c2", order_date := some "2024-01-06",
    product_category := some "A", product_name := some "p", quantity := some 1,
    unit_price := some 2, order_amount := some 2, status := none }

/-- The same row as `exRow9b` but with the status already set to pending. -/
def exRow9c : Row :=
  { order_id := some "b", customer_id := some "c2", order_date := some "2024-01-06",
    product_category := some "A", product_name := some "p", quantity := some 1,
    unit_price := some 2, order_amount := some 2, status := some "pending" }

/-- Counterexample to claim C9 as stated: on this three-row dataset,
`clean_data` returns a first row whose quantity 1/2 was truncated to 0 by
`astype(int)` (violating `0 < quantity`), and two identical rows — the last
two inputs differ only in one having a missing status, so both survive the
duplicate removal that runs before the status fill and only afterwards
become equal — violating the no-duplicates clause. -/
theorem clean_data_invariants_cex :
    ¬ C9Claim (clean_data (fun s => some s) [exRow9a, exRow9b, exRow9c]) := by
  simp only [C9Claim, C9RowClaim]
  decide

/-- The input row for the C9 witness: everything valid, status missing. -/
def exRow9w : Row :=
  { order_id := some "w", customer_id := some "c3", order_date := some "2024-02-01",
    product_category := some "B", product_name := some "q", quantity := some 2,
    unit_price := some 3, order_amount := some 6, status := none }

/-- The row `clean_data` produces from `exRow9w`. -/
def exRow9wOut : Row := { exRow9w with status := some "pending" }

/-- Witness for C9 (amended) at a concrete one-row dataset. -/
theorem clean_data_invariants_witness :
    exRow9wOut.quantity.any (fun q => decide (q.den = 1) && decide (0 ≤ q)) = true
    ∧ exRow9wOut.unit_price.any (fun p => decide (0 ≤ p)) = true
    ∧ exRow9wOut.order_amount.any (fun a => decide (0 ≤ a)) = true
    ∧ (exRow9wOut.status = some "completed" ∨ exRow9wOut.status = some "cancelled"
        ∨ exRow9wOut.status = some "pending")
    ∧ exRow9wOut.order_id.isSome = true ∧ exRow9wOut.customer_id.isSome = true
    ∧ exRow9wOut.order_date.isSome = true ∧ exRow9wOut.product_category.isSome = true
    ∧ exRow9wOut.product_name.isSome = true :=
  (clean_data_invariants (fun s => some s) [exRow9w]).1 exRow9wOut (by decide)

/- ===================== src/analyzer.py : analytics ===================== -/

/-- One row of the cleaned dataset as `run_analytics_and_exports` consumes
it: every field present and typed. `month` stands for the calendar month of
`order_date` (the value `order_date.dt.to_period("M")` groups by), the only
granularity of the date the engine uses. -/
structure Order where
  order_id : String
  customer_id : String
  month : Nat
  product_category : String
  product_name : String
  quantity : Int
  unit_price : Rat
  order_amount : Rat
  status : String
deriving DecidableEq, Repr

/-- The `completed` frame: `df[df["status"] == "completed"]`. -/
def completedOf (df : List Order) : List Order :=
  df.filter (fun o => decide (o.status = "completed"))

/-- Embeds `completed.groupby(key)["order_amount"].sum()` with pandas' default
`sort=True`: the distinct keys in ascending order, each paired with the sum
of `order_amount` over its group. -/
def groupSumBy [LinearOrder κ] [DecidableEq κ] (key : Order → κ) (df : List Order) : List (κ × Rat) :=
  (merge_sort (fun a b => decide (a ≤ b)) (drop_duplicates (df.map key))).map
    (fun k => (k, ((df.filter (fun o => decide (key o = k))).map
      (fun o => o.order_amount)).sum))

/-- Embeds `Series.sort_values(ascending=False)` as pandas computes it (`nargsort`):
an ascending argsort — stable on the small series this project sorts, since
numpy's small-array sort is an insertion sort — followed by a reversal. -/
def sort_values_desc (pairs : List (κ × Rat)) : List (κ × Rat) :=
  (merge_sort (fun p q => decide (p.2 ≤ q.2)) pairs).reverse

/-- Embeds `revenue_by_cat` from `run_analytics_and_exports` (Q4): revenue per
category over completed orders, sorted by revenue descending. -/
def revenue_by_cat (df : List Order) : List (String × Rat) :=
  sort_values_desc (groupSumBy (fun o => o.product_category) (completedOf df))

/-- Embeds `top_category`: `revenue_by_cat.index[0] if len(revenue_by_cat) else "N/A"`. -/
def top_category (df : List Order) : String :=
  match revenue_by_cat df with
  | [] => "N/A"
  | p :: _ => p.1

theorem decide_le_total [LinearOrder β] (f : γ → β) :
    LeTotal (fun a b => decide (f a ≤ f b)) := by
  intro a b
  rcases le_total (f a) (f b) with h | h
  · exact Or.inl (by simpa using h)
  · exact Or.inr (by simpa using h)

theorem decide_le_trans [LinearOrder β] (f : γ → β) :
    LeTrans (fun a b => decide (f a ≤ f b)) := by
  intro a b c hab hbc
  simp only [decide_eq_true_eq] at *
  exact le_trans hab hbc

theorem groupSumBy_pairwise_fst [LinearOrder κ] [DecidableEq κ] (key : Order → κ) (df : List Order) :
    (groupSumBy key df).Pairwise (fun p q => p.1 < q.1) := by
  rw [groupSumBy, List.pairwise_map]
  have hsorted : (merge_sort (fun a b : κ => decide (a ≤ b))
      (drop_duplicates (df.map key))).Pairwise (· ≤ ·) := by
    refine (merge_sort_sorted _ (decide_le_total (id : κ → κ))
      (decide_le_trans (id : κ → κ)) _).imp ?_
    intro a b h
    simpa using h
  have hnodup : (merge_sort (fun a b : κ => decide (a ≤ b))
      (drop_duplicates (df.map key))).Nodup :=
    (merge_sort_perm _ _).symm.nodup (drop_duplicates_nodup _)
  exact (hsorted.and hnodup).imp (fun h => lt_of_le_of_ne h.1 h.2)

theorem sort_values_desc_sorted (pairs : List (κ × Rat)) :
    (sort_values_desc pairs).Pairwise (fun p q => q.2 ≤ p.2) := by
  rw [sort_values_desc, List.pairwise_reverse]
  refine (merge_sort_sorted _ (decide_le_total (Prod.snd : κ × Rat → Rat))
    (decide_le_trans (Prod.snd : κ × Rat → Rat)) _).imp ?_
  intro a b h
  simpa using h

theorem sort_values_desc_perm (pairs : List (κ × Rat)) :
    (sort_values_desc pairs).Perm pairs :=
  (List.reverse_perm _).trans (merge_sort_perm _ _)

theorem merge_sort_nil (le : α → α → Bool) : merge_sort le [] = [] := by
  rw [merge_sort]
  simp

theorem merge_sort_single (le : α → α → Bool) (a : α) : merge_sort le [a] = [a] := by
  rw [merge_sort]
  simp

theorem merge_sort_pair (le : α → α → Bool) (a b : α) :
    merge_sort le [a, b] = if le a b then [a, b] else [b, a] := by
  rw [merge_sort]
  norm_num [List.take, List.drop, merge_sort_single]
  cases h : le a b <;> simp [_merge, h]

theorem sort_values_desc_pairwise_lex [LinearOrder κ] (pairs : List (κ × Rat))
    (hS : pairs.Pairwise (fun p q => p.1 < q.1)) :
    (sort_values_desc pairs).Pairwise
      (fun p q => q.2 < p.2 ∨ (p.2 = q.2 ∧ q.1 < p.1)) := by
  rw [sort_values_desc, List.pairwise_reverse]
  have hlex := merge_sort_pairwise_lex (fun p q : κ × Rat => decide (p.2 ≤ q.2))
    (decide_le_total Prod.snd) (decide_le_trans Prod.snd)
    (fun p q => p.1 < q.1) pairs hS
  refine hlex.imp ?_
  intro a b h
  obtain ⟨h1, h2⟩ := h
  rw [decide_eq_true_eq] at h1
  rcases lt_or_eq_of_le h1 with hlt | heq
  · exact Or.inl hlt
  · exact Or.inr ⟨heq.symm, h2 (decide_eq_true (le_of_eq heq.symm))⟩

/-- Claim C2 (amended): `revenue_by_cat` consists of exactly the per-category
sums of completed `order_amount` (a permutation of the groupby table, each
entry carrying its group's sum), sorted descending by revenue with ties
ordered by category name DESCENDING — pandas' `sort_values(ascending=False)`
reverses a stable ascending sort, so tied categories appear in the reverse of
the groupby's ascending-name order, not ascending as claimed; the most
profitable category is the first entry of the ranking, or "N/A" when there
are no completed orders; and the ranking is deterministic. -/
theorem revenue_by_cat_spec (df : List Order) :
    (revenue_by_cat df).Perm (groupSumBy (fun o => o.product_category) (completedOf df))
    ∧ (∀ p ∈ revenue_by_cat df,
        p.2 = (((completedOf df).filter (fun o => decide (o.product_category = p.1))).map
          (fun o => o.order_amount)).sum)
    ∧ (revenue_by_cat df).Pairwise (fun p q => q.2 < p.2 ∨ (p.2 = q.2 ∧ q.1 < p.1))
    ∧ (completedOf df = [] → top_category df = "N/A")
    ∧ (∀ p l', revenue_by_cat df = p :: l' → top_category df = p.1)
    ∧ (∀ df' : List Order, df = df' → revenue_by_cat df = revenue_by_cat df') := by
  refine ⟨sort_values_desc_perm _, ?_, ?_, ?_, ?_, ?_⟩
  · intro p hp
    have hp' : p ∈ groupSumBy (fun o => o.product_category) (completedOf df) :=
      (sort_values_desc_perm _).subset hp
    rw [groupSumBy] at hp'
    obtain ⟨k, hk, rfl⟩ := List.mem_map.mp hp'
    simp
  · exact sort_values_desc_pairwise_lex _ (groupSumBy_pairwise_fst _ _)
  · intro hempty
    have hnil : revenue_by_cat df = [] := by
      rw [revenue_by_cat, hempty, groupSumBy]
      simp [drop_duplicates, drop_duplicates_go, merge_sort_nil, sort_values_desc]
    simp [top_category, hnil]
  · intro p l' hpl
    simp [top_category, hpl]
  · intro df' h
    rw [h]

/-- A completed order in category "A" with amount 10. -/
def exOrdA : Order :=
  { order_id := "o1", customer_id := "c1", month := 1, product_category := "A",
    product_name := "p", quantity := 1, unit_price := 10, order_amount := 10,
    status := "completed" }

/-- A completed order in category "B", also with amount 10. -/
def exOrdB : Order :=
  { order_id := "o2", customer_id := "c2", month := 1, product_category := "B",
    product_name := "p", quantity := 1, unit_price := 10, order_amount := 10,
    status := "completed" }

/-- Two completed orders whose categories tie at revenue 10. -/
def exDf2 : List Order := [exOrdA, exOrdB]

theorem revenue_by_cat_exDf2 : revenue_by_cat exDf2 = [("B", 10), ("A", 10)] := by
  have hc : completedOf exDf2 = [exOrdA, exOrdB] := by decide
  have hk : drop_duplicates (List.map (fun o => o.product_category) [exOrdA, exOrdB])
      = ["A", "B"] := by decide
  have hAB : (decide (("A" : String) ≤ "B")) = true :=
    decide_eq_true (by rw [String.le_iff_toList_le]; decide)
  have hfA : List.filter (fun o => decide (o.product_category = "A")) [exOrdA, exOrdB]
      = [exOrdA] := by decide
  have hfB : List.filter (fun o => decide (o.product_category = "B")) [exOrdA, exOrdB]
      = [exOrdB] := by decide
  have h1010 : (decide ((10 : Rat) ≤ (10 : Rat))) = true := decide_eq_true le_rfl
  rw [revenue_by_cat, hc, groupSumBy, hk]
  simp only [merge_sort_pair, hAB, if_true, List.map_cons, List.map_nil, hfA, hfB]
  rw [show ([exOrdA.order_amount] : List Rat).sum = 10 by simp [exOrdA],
    show ([exOrdB.order_amount] : List Rat).sum = 10 by simp [exOrdB]]
  rw [sort_values_desc]
  simp only [merge_sort_pair, h1010, if_true]
  rfl

/-- Counterexample to C2 as stated: with categories "A" and "B" tied at
revenue 10, the engine ranks "B" before "A" (reverse of the groupby's
ascending-name order), so the ranking is NOT tie-broken by category name
ascending. -/
theorem revenue_by_cat_ties_cex :
    ¬ (revenue_by_cat exDf2).Pairwise
      (fun p q => q.2 < p.2 ∨ (p.2 = q.2 ∧ p.1 < q.1)) := by
  rw [revenue_by_cat_exDf2]
  intro hpair
  have hrel := List.rel_of_pairwise_cons hpair (List.mem_cons_self _ _)
  rcases hrel with h | h
  · exact absurd h (by norm_num)
  · have hBA := h.2
    rw [String.lt_iff_toList_lt] at hBA
    exact absurd hBA (by decide)

/-- Witness for C2 (amended) at the tied dataset: the top category is the
head of the computed ranking, and the ranking is a permutation of the
per-category sums. -/
theorem revenue_by_cat_spec_witness :
    top_category exDf2 = "B"
    ∧ (revenue_by_cat exDf2).Perm
        (groupSumBy (fun o => o.product_category) (completedOf exDf2)) :=
  ⟨(revenue_by_cat_spec exDf2).2.2.2.2.1 ("B", 10) [("A", 10)] revenue_by_cat_exDf2,
   (revenue_by_cat_spec exDf2).1⟩

/-- Sorting a list of rationals ascending (what `Series.quantile` does
internally before interpolating order statistics); the engine's own stable
sort is reused as the model of sorting. -/
def sortRat (l : List Rat) : List Rat := merge_sort (fun a b => decide (a ≤ b)) l

/-- Linear interpolation on an ascending list `s` at probability `num/den`
(pandas `Series.quantile`'s default method): with `h = (len s - 1) * num/den`,
`j = floor h` and `g = h - j`, the result is `s[j] + g * (s[j+1] - s[j])`.
`pos / den` and `pos % den` compute `j` and the numerator of `g` exactly. -/
def qAt (s : List Rat) (num den : Nat) : Rat :=
  s.getD ((s.length - 1) * num / den) 0
    + (((s.length - 1) * num % den : Nat) : Rat) / (den : Rat)
      * (s.getD ((s.length - 1) * num / den + 1) 0 - s.getD ((s.length - 1) * num / den) 0)

/-- Embeds `Series.quantile(num/den)` of a list of values. -/
def quantileLin (l : List Rat) (num den : Nat) : Rat := qAt (sortRat l) num den

/-- The outlier upper bound of `run_analytics_and_exports` (Q10):
`q3 + 1.5 * (q3 - q1)` over a list of completed order amounts. -/
def iqr_upper (amounts : List Rat) : Rat :=
  quantileLin amounts 3 4 + (3 / 2) * (quantileLin amounts 3 4 - quantileLin amounts 1 4)

theorem sortRat_sorted (l : List Rat) : (sortRat l).Pairwise (· ≤ ·) := by
  refine (merge_sort_sorted _ (decide_le_total (id : Rat → Rat))
    (decide_le_trans (id : Rat → Rat)) l).imp ?_
  intro a b h
  simpa using h

theorem sortRat_perm (l : List Rat) : (sortRat l).Perm l := merge_sort_perm _ l

theorem sortRat_eq_of_sorted {l l' : List Rat} (hs : l'.Pairwise (· ≤ ·))
    (hp : l.Perm l') : sortRat l = l' :=
  List.eq_of_perm_of_sorted ((sortRat_perm l).trans hp) (sortRat_sorted l) hs

theorem sortRat_congr_perm {l l' : List Rat} (hp : l.Perm l') : sortRat l = sortRat l' :=
  sortRat_eq_of_sorted (sortRat_sorted l') (hp.trans (sortRat_perm l').symm)

theorem sortRat_append_max {l : List Rat} {M : Rat} (hmax : ∀ x ∈ l, x ≤ M) :
    sortRat (M :: l) = sortRat l ++ [M] := by
  refine sortRat_eq_of_sorted ?_ ?_
  · rw [List.pairwise_append]
    refine ⟨sortRat_sorted l, by simp, ?_⟩
    intro a ha b hb
    rw [List.mem_singleton] at hb
    subst hb
    exact hmax a ((sortRat_perm l).subset ha)
  · exact ((List.perm_append_singleton M (sortRat l)).trans
      (((sortRat_perm l).cons M))).symm

theorem set_perm_cons_eraseIdx :
    ∀ (l : List α) (i : Nat) (v : α), i < l.length →
      (l.set i v).Perm (v :: l.eraseIdx i) := by
  intro l
  induction l with
  | nil => intro i v h; simp at h
  | cons x xs ih =>
    intro i v h
    cases i with
    | zero => simp [List.set, List.eraseIdx]
    | succ n =>
      simp only [List.set, List.eraseIdx]
      exact ((ih n v (by simpa using h)).cons x).trans (List.Perm.swap v x _)

theorem perm_get_cons_eraseIdx :
    ∀ (l : List α) (i : Nat) (hi : i < l.length),
      l.Perm (l.get ⟨i, hi⟩ :: l.eraseIdx i) := by
  intro l
  induction l with
  | nil => intro i hi; simp at hi
  | cons x xs ih =>
    intro i hi
    cases i with
    | zero => simp [List.eraseIdx]
    | succ n =>
      simp only [List.get, List.eraseIdx]
      exact ((ih n (by simpa using hi)).cons x).trans (List.Perm.swap _ x _)

theorem qAt_mono (s t : List Rat) (hlen : s.length = t.length) (den : Nat)
    (hden : 0 < den) (num : Nat) (hpt : ∀ k : Nat, s.getD k 0 ≤ t.getD k 0) :
    qAt s num den ≤ qAt t num den := by
  rw [qAt, qAt, hlen]
  have h0g : (0 : Rat) ≤ (((t.length - 1) * num % den : Nat) : Rat) / (den : Rat) :=
    div_nonneg (by positivity) (by positivity)
  have h1g : (((t.length - 1) * num % den : Nat) : Rat) / (den : Rat) ≤ 1 := by
    rw [div_le_one (by exact_mod_cast hden)]
    exact_mod_cast le_of_lt (Nat.mod_lt _ hden)
  have e1 := hpt ((t.length - 1) * num / den)
  have e2 := hpt ((t.length - 1) * num / den + 1)
  nlinarith [mul_nonneg (sub_nonneg.mpr h1g) (sub_nonneg.mpr e1),
    mul_nonneg h0g (sub_nonneg.mpr e2)]

theorem qAt_singleton (x : Rat) (num : Nat) : qAt [x] num 4 = x := by
  norm_num [qAt]

theorem qAt_pair_q1 (x y : Rat) : qAt [x, y] 1 4 = x + ((1 : Rat) / 4) * (y - x) := by
  norm_num [qAt]

theorem qAt_pair_q3 (x y : Rat) : qAt [x, y] 3 4 = x + ((3 : Rat) / 4) * (y - x) := by
  norm_num [qAt]

theorem qAt_q1_append {s0 : List Rat} (h2 : 2 ≤ s0.length) (M M' : Rat) :
    qAt (s0 ++ [M]) 1 4 = qAt (s0 ++ [M']) 1 4 := by
  rw [qAt, qAt]
  have hlen : (s0 ++ [M]).length = s0.length + 1 := by simp
  have hlen' : (s0 ++ [M']).length = s0.length + 1 := by simp
  rw [hlen, hlen']
  have hj : (s0.length + 1 - 1) * 1 / 4 < s0.length := by omega
  have hj1 : (s0.length + 1 - 1) * 1 / 4 + 1 < s0.length := by omega
  rw [List.getD_append _ _ _ _ hj, List.getD_append _ _ _ _ hj1,
    List.getD_append _ _ _ _ hj, List.getD_append _ _ _ _ hj1]

theorem getD_append_le {s0 : List Rat} {M M' : Rat} (hMM : M ≤ M') :
    ∀ k : Nat, (s0 ++ [M]).getD k 0 ≤ (s0 ++ [M']).getD k 0 := by
  intro k
  rcases lt_trichotomy k s0.length with hk | hk | hk
  · rw [List.getD_append _ _ _ _ hk, List.getD_append _ _ _ _ hk]
  · subst hk
    rw [List.getD_append_right _ _ _ _ (le_refl _), List.getD_append_right _ _ _ _ (le_refl _)]
    simpa using hMM
  · have hlen : (s0 ++ [M]).length ≤ k := by simp; omega
    have hlen' : (s0 ++ [M']).length ≤ k := by simp; omega
    rw [List.getD_eq_default _ _ hlen, List.getD_eq_default _ _ hlen']

/-- Claim C3 (amended): raising the single largest completed `order_amount`
by any positive delta never decreases the IQR upper bound
`q3 + 1.5 * (q3 - q1)`. The bound is NOT monotone in an arbitrary single
amount: raising a small amount can raise Q1 and thereby lower the bound
(see the counterexample). -/
theorem iqr_upper_mono_max (l : List Rat) (i : Nat) (hi : i < l.length)
    (hmax : ∀ x ∈ l, x ≤ l.get ⟨i, hi⟩) (d : Rat) (hd : 0 < d) :
    iqr_upper l ≤ iqr_upper (l.set i (l.get ⟨i, hi⟩ + d)) := by
  have hperm1 : l.Perm (l.get ⟨i, hi⟩ :: l.eraseIdx i) := perm_get_cons_eraseIdx l i hi
  have hperm2 : (l.set i (l.get ⟨i, hi⟩ + d)).Perm ((l.get ⟨i, hi⟩ + d) :: l.eraseIdx i) :=
    set_perm_cons_eraseIdx l i _ hi
  have hmaxr : ∀ x ∈ l.eraseIdx i, x ≤ l.get ⟨i, hi⟩ :=
    fun x hx => hmax x ((List.eraseIdx_sublist l i).subset hx)
  have hs1 : sortRat l = sortRat (l.eraseIdx i) ++ [l.get ⟨i, hi⟩] := by
    rw [sortRat_congr_perm hperm1]
    exact sortRat_append_max hmaxr
  have hs2 : sortRat (l.set i (l.get ⟨i, hi⟩ + d))
      = sortRat (l.eraseIdx i) ++ [l.get ⟨i, hi⟩ + d] := by
    rw [sortRat_congr_perm hperm2]
    exact sortRat_append_max (fun x hx => le_trans (hmaxr x hx) (by linarith))
  rw [iqr_upper, iqr_upper, quantileLin, quantileLin, quantileLin, quantileLin, hs1, hs2]
  rcases hr : sortRat (l.eraseIdx i) with _ | ⟨a, _ | ⟨b, rest⟩⟩
  · simp only [List.nil_append]
    rw [qAt_singleton, qAt_singleton, qAt_singleton, qAt_singleton]
    linarith
  · simp only [List.cons_append, List.nil_append]
    rw [qAt_pair_q1, qAt_pair_q3, qAt_pair_q1, qAt_pair_q3]
    linarith
  · have h2 : 2 ≤ (a :: b :: rest).length := by simp
    have hq1 := qAt_q1_append h2 (l.get ⟨i, hi⟩) (l.get ⟨i, hi⟩ + d)
    have hq3 : qAt ((a :: b :: rest) ++ [l.get ⟨i, hi⟩]) 3 4
        ≤ qAt ((a :: b :: rest) ++ [l.get ⟨i, hi⟩ + d]) 3 4 :=
      qAt_mono _ _ (by simp) 4 (by norm_num) 3 (getD_append_le (by linarith))
    linarith

/-- Counterexample to C3 as stated: on the completed amounts
`[0, 10, 10, 10]`, raising the single amount 0 by 10 LOWERS the IQR upper
bound from 13.75 to 10, so the bound is not monotone in every single
amount. -/
theorem iqr_upper_mono_cex :
    iqr_upper (([0, 10, 10, 10] : List Rat).set 0 (0 + 10)) < iqr_upper [0, 10, 10, 10] := by
  have hs1 : sortRat [0, 10, 10, 10] = [0, 10, 10, 10] :=
    sortRat_eq_of_sorted (by norm_num [List.pairwise_cons]) (List.Perm.refl _)
  have hs2 : sortRat [10, 10, 10, 10] = [10, 10, 10, 10] :=
    sortRat_eq_of_sorted (by norm_num [List.pairwise_cons]) (List.Perm.refl _)
  have hset : (([0, 10, 10, 10] : List Rat).set 0 (0 + 10)) = [10, 10, 10, 10] := by
    norm_num [List.set]
  rw [hset, iqr_upper, iqr_upper, quantileLin, quantileLin, quantileLin, quantileLin,
    hs1, hs2]
  norm_num [qAt]

/-- Witness for C3 (amended): raising the maximum of `[1, 5]` by 1 does not
decrease the bound. -/
theorem iqr_upper_mono_max_witness :
    iqr_upper [(1 : Rat), 5] ≤ iqr_upper [(1 : Rat), 6] := by
  have h := iqr_upper_mono_max [(1 : Rat), 5] 1 (by norm_num)
    (by intro x hx
        rcases List.mem_cons.mp hx with rfl | hx
        · norm_num
        · rcases List.mem_cons.mp hx with rfl | hx
          · norm_num
          · simp at hx)
    1 (by norm_num)
  have hset : (([1, 5] : List Rat).set 1 (([1, 5] : List Rat).get ⟨1, by norm_num⟩ + 1))
      = [1, 6] := by
    norm_num [List.set]
  rw [hset] at h
  exact h

/-- The entries of `pct_change` after the first: each compares a revenue to
the previous month's revenue `prev`; a zero `prev` yields a missing growth
(the source turns the resulting `inf`/`nan` into `NaN` via
`.replace([np.inf, -np.inf], np.nan)`). -/
def growth_go (prev : Rat) : List Rat → List (Option Rat)
  | [] => []
  | r :: rs => (if prev = 0 then none else some ((r - prev) / prev * 100)) :: growth_go r rs

/-- Embeds `monthly_revenue.pct_change() * 100` with infinities replaced by missing:
the first month's growth is missing, and each later month's growth is the
percentage change from the previous month, missing when the previous
month's revenue is 0. -/
def growthList : List Rat → List (Option Rat)
  | [] => []
  | r :: rs => none :: growth_go r rs

/-- Embeds `monthly_revenue` (Q7): completed revenue summed per calendar month, in
chronological order (pandas groups sorted by key; `sort_index()` keeps the
order). -/
def monthly_revenue (df : List Order) : List (Nat × Rat) :=
  groupSumBy (fun o => o.month) (completedOf df)

/-- Embeds `monthly_growth` (Q7): the month-over-month percentage growth series. -/
def monthly_growth (df : List Order) : List (Option Rat) :=
  growthList ((monthly_revenue df).map Prod.snd)

theorem growth_go_length (prev : Rat) (l : List Rat) :
    (growth_go prev l).length = l.length := by
  induction l generalizing prev with
  | nil => rfl
  | cons r rs ih => simp [growth_go, ih]

theorem growth_go_get? :
    ∀ (l : List Rat) (prev : Rat) (i : Nat) (y : Rat), l.get? i = some y →
      (growth_go prev l).get? i
        = some (if (prev :: l).getD i 0 = 0 then none
                else some ((y - (prev :: l).getD i 0) / (prev :: l).getD i 0 * 100)) := by
  intro l
  induction l with
  | nil => intro prev i y h; simp at h
  | cons r rs ih =>
    intro prev i y h
    cases i with
    | zero =>
      simp only [List.get?] at h
      obtain rfl := Option.some.inj h
      simp [growth_go]
    | succ n =>
      simp only [List.get?] at h
      simpa [growth_go] using ih r n y h

theorem growthList_length (l : List Rat) : (growthList l).length = l.length := by
  cases l <;> simp [growthList, growth_go_length]

/-- Claim C7: the first month's growth in the monthly revenue trend is
reported as missing (not zero, not an error); every later month's growth is
missing exactly when the previous month's revenue is 0 — the division is
guarded, since the source replaces the `inf` produced by a zero denominator
with `NaN` — and otherwise equals the finite percentage change. The series
is total and never carries an infinite value. -/
theorem monthly_growth_spec (df : List Order) :
    (monthly_growth df).length = (monthly_revenue df).length
    ∧ (monthly_revenue df ≠ [] → (monthly_growth df).get? 0 = some none)
    ∧ (∀ (i : Nat) (x y : Rat),
        ((monthly_revenue df).map Prod.snd).get? i = some x →
        ((monthly_revenue df).map Prod.snd).get? (i + 1) = some y →
        (monthly_growth df).get? (i + 1)
          = some (if x = 0 then none else some ((y - x) / x * 100))) := by
  refine ⟨?_, ?_, ?_⟩
  · rw [monthly_growth, growthList_length, List.length_map]
  · intro hne
    rcases hv : (monthly_revenue df).map Prod.snd with _ | ⟨r, rs⟩
    · exact absurd (List.map_eq_nil_iff.mp hv) hne
    · rw [monthly_growth, hv, growthList]
      rfl
  · intro i x y hx hy
    rcases hv : (monthly_revenue df).map Prod.snd with _ | ⟨r, rs⟩
    · rw [hv] at hx
      simp at hx
    · rw [hv] at hx hy
      rw [monthly_growth, hv, growthList]
      have hy' : rs.get? i = some y := hy
      have hx' : (r :: rs).getD i 0 = x := by
        rw [List.getD_eq_getD_get?, hx]
        rfl
      rw [show (none :: growth_go r rs).get? (i + 1) = (growth_go r rs).get? i from rfl,
        growth_go_get? rs r i y hy', hx']

/-- A completed order in month 1 with amount 0. -/
def exOrd7a : Order :=
  { order_id := "o1", customer_id := "c1", month := 1, product_category := "A",
    product_name := "p", quantity := 1, unit_price := 0, order_amount := 0,
    status := "completed" }

/-- A completed order in month 2 with amount 5. -/
def exOrd7b : Order :=
  { order_id := "o2", customer_id := "c1", month := 2, product_category := "A",
    product_name := "p", quantity := 1, unit_price := 5, order_amount := 5,
    status := "completed" }

/-- A dataset whose first month has revenue 0. -/
def exDf7 : List Order := [exOrd7a, exOrd7b]

theorem monthly_revenue_exDf7 : monthly_revenue exDf7 = [(1, 0), (2, 5)] := by
  have hc : completedOf exDf7 = [exOrd7a, exOrd7b] := by decide
  have hk : drop_duplicates (List.map (fun o => o.month) [exOrd7a, exOrd7b]) = [1, 2] := by
    decide
  have h12 : (decide ((1 : Nat) ≤ 2)) = true := by decide
  have hf1 : List.filter (fun o => decide (o.month = 1)) [exOrd7a, exOrd7b] = [exOrd7a] := by
    decide
  have hf2 : List.filter (fun o => decide (o.month = 2)) [exOrd7a, exOrd7b] = [exOrd7b] := by
    decide
  rw [monthly_revenue, hc, groupSumBy, hk]
  simp only [merge_sort_pair, h12, if_true, List.map_cons, List.map_nil, hf1, hf2]
  rw [show ([exOrd7a.order_amount] : List Rat).sum = 0 by simp [exOrd7a],
    show ([exOrd7b.order_amount] : List Rat).sum = 5 by simp [exOrd7b]]

/-- Witness for C7: on a dataset whose first month has revenue 0, the first
growth entry is missing, and so is the second (its previous month's revenue
is 0). -/
theorem monthly_growth_spec_witness :
    (monthly_growth exDf7).get? 0 = some none
    ∧ (monthly_growth exDf7).get? 1 = some none := by
  constructor
  · exact (monthly_growth_spec exDf7).2.1 (by rw [monthly_revenue_exDf7]; simp)
  · have h := (monthly_growth_spec exDf7).2.2 0 0 5
      (by rw [monthly_revenue_exDf7]; rfl) (by rw [monthly_revenue_exDf7]; rfl)
    simpa using h

/-- Embeds `customer_ltv` (Q5): lifetime value (sum of completed `order_amount`)
per customer, sorted by value descending. -/
def customer_ltv (df : List Order) : List (String × Rat) :=
  sort_values_desc (groupSumBy (fun o => o.customer_id) (completedOf df))

/-- Embeds `pd.qcut(values, 4, labels=[...])`: the bin edges are the quantiles of
the values at probabilities 0, 1/4, 1/2, 3/4, 1; qcut raises
`ValueError: Bin edges must be unique` when two edges coincide (the
`Except.error` case); on success each value falls into the first
right-closed bin whose upper edge is at least the value, giving a tier
index 0..3 (Bronze..Platinum, ascending). -/
def qcut4 (values : List Rat) : Except String (List Nat) :=
  if [quantileLin values 0 4, quantileLin values 1 4, quantileLin values 2 4,
      quantileLin values 3 4, quantileLin values 4 4].Nodup then
    Except.ok (values.map (fun v =>
      if v ≤ quantileLin values 1 4 then 0
      else if v ≤ quantileLin values 2 4 then 1
      else if v ≤ quantileLin values 3 4 then 2
      else 3))
  else Except.error "Bin edges must be unique"

/-- The customer-segmentation step of `run_analytics_and_exports`: when at
least 4 customers hold completed orders, qcut the lifetime values into four
tiers and count each tier (`value_counts().sort_index()` lists the four tier
labels in ascending order); otherwise the segmentation is the empty series.
The `Except.error` case models the uncaught pandas `ValueError`. -/
def segmentation (df : List Order) : Except String (List (String × Nat)) :=
  if 4 ≤ (customer_ltv df).length then
    match qcut4 ((customer_ltv df).map Prod.snd) with
    | Except.error e => Except.error e
    | Except.ok tiers =>
      Except.ok [("Bronze", (tiers.filter (fun t => decide (t = 0))).length),
                 ("Silver", (tiers.filter (fun t => decide (t = 1))).length),
                 ("Gold", (tiers.filter (fun t => decide (t = 2))).length),
                 ("Platinum", (tiers.filter (fun t => decide (t = 3))).length)]
  else Except.ok []

theorem list_length_eq_four {l : List α} (h : l.length = 4) :
    ∃ a b c d, l = [a, b, c, d] := by
  rcases l with _ | ⟨a, _ | ⟨b, _ | ⟨c, _ | ⟨d, _ | ⟨e, t⟩⟩⟩⟩⟩
  all_goals
    first
      | exact ⟨a, b, c, d, rfl⟩
      | (simp only [List.length_cons, List.length_nil] at h; omega)

/-- Claim C8: with fewer than 4 customers holding completed orders the
segmentation is the empty series and no error is raised; with exactly 4
customers of strictly distinct lifetime values, every one of the four tiers
Bronze/Silver/Gold/Platinum receives exactly one customer. -/
theorem segmentation_spec (df : List Order) :
    ((customer_ltv df).length < 4 → segmentation df = Except.ok [])
    ∧ ((customer_ltv df).length = 4 → ((customer_ltv df).map Prod.snd).Nodup →
        segmentation df
          = Except.ok [("Bronze", 1), ("Silver", 1), ("Gold", 1), ("Platinum", 1)]) := by
  constructor
  · intro hlen
    rw [segmentation, if_neg (by omega)]
  · intro hlen hnd
    obtain ⟨p0, p1, p2, p3, hl⟩ := list_length_eq_four hlen
    have hsd : (customer_ltv df).Pairwise (fun p q => q.2 ≤ p.2) := sort_values_desc_sorted _
    rw [hl] at hsd hnd
    have hab : p1.2 ≤ p0.2 := List.rel_of_pairwise_cons hsd (by simp)
    have hbc : p2.2 ≤ p1.2 := List.rel_of_pairwise_cons hsd.tail (by simp)
    have hcd : p3.2 ≤ p2.2 := List.rel_of_pairwise_cons hsd.tail.tail (by simp)
    simp only [List.map_cons, List.map_nil, List.nodup_cons, List.mem_cons,
      List.not_mem_nil, or_false, not_or, List.nodup_nil, and_true] at hnd
    obtain ⟨⟨hne01, hne02, hne03⟩, ⟨hne12, hne13⟩, hne23, -⟩ := hnd
    have h01 : p1.2 < p0.2 := lt_of_le_of_ne hab (Ne.symm hne01)
    have h12 : p2.2 < p1.2 := lt_of_le_of_ne hbc (Ne.symm hne12)
    have h23 : p3.2 < p2.2 := lt_of_le_of_ne hcd (Ne.symm hne23)
    have hsort : sortRat [p0.2, p1.2, p2.2, p3.2] = [p3.2, p2.2, p1.2, p0.2] := by
      refine sortRat_eq_of_sorted ?_ ?_
      · refine List.Pairwise.cons ?_ (List.Pairwise.cons ?_ (List.Pairwise.cons ?_ ?_))
        · intro z hz
          simp only [List.mem_cons, List.not_mem_nil, or_false] at hz
          rcases hz with rfl | rfl | rfl <;> linarith
        · intro z hz
          simp only [List.mem_cons, List.not_mem_nil, or_false] at hz
          rcases hz with rfl | rfl <;> linarith
        · intro z hz
          simp only [List.mem_cons, List.not_mem_nil, or_false] at hz
          rcases hz with rfl <;> linarith
        · simp
      · simpa using (List.reverse_perm [p0.2, p1.2, p2.2, p3.2]).symm
    have he0 : quantileLin [p0.2, p1.2, p2.2, p3.2] 0 4 = p3.2 := by
      rw [quantileLin, hsort]
      norm_num [qAt]
    have he1 : quantileLin [p0.2, p1.2, p2.2, p3.2] 1 4
        = p3.2 + (3 : Rat) / 4 * (p2.2 - p3.2) := by
      rw [quantileLin, hsort]
      norm_num [qAt]
    have he2 : quantileLin [p0.2, p1.2, p2.2, p3.2] 2 4
        = p2.2 + (1 : Rat) / 2 * (p1.2 - p2.2) := by
      rw [quantileLin, hsort]
      norm_num [qAt]
    have he3 : quantileLin [p0.2, p1.2, p2.2, p3.2] 3 4
        = p1.2 + (1 : Rat) / 4 * (p0.2 - p1.2) := by
      rw [quantileLin, hsort]
      norm_num [qAt]
    have he4 : quantileLin [p0.2, p1.2, p2.2, p3.2] 4 4 = p0.2 := by
      rw [quantileLin, hsort]
      norm_num [qAt]
    rw [segmentation, hl]
    rw [if_pos (by norm_num)]
    simp only [List.map_cons, List.map_nil]
    rw [qcut4, he0, he1, he2, he3, he4]
    rw [if_pos ?hnodupE]
    case hnodupE =>
      refine List.Pairwise.cons ?_ (List.Pairwise.cons ?_ (List.Pairwise.cons ?_
        (List.Pairwise.cons ?_ ?_)))
      · intro z hz
        simp only [List.mem_cons, List.not_mem_nil, or_false] at hz
        rcases hz with rfl | rfl | rfl | rfl <;> exact ne_of_lt (by linarith)
      · intro z hz
        simp only [List.mem_cons, List.not_mem_nil, or_false] at hz
        rcases hz with rfl | rfl | rfl <;> exact ne_of_lt (by linarith)
      · intro z hz
        simp only [List.mem_cons, List.not_mem_nil, or_false] at hz
        rcases hz with rfl | rfl <;> exact ne_of_lt (by linarith)
      · intro z hz
        simp only [List.mem_cons, List.not_mem_nil, or_false] at hz
        rcases hz with rfl <;> exact ne_of_lt (by linarith)
      · simp
    simp only [List.map_cons, List.map_nil]
    rw [if_neg (not_le.mpr (by linarith : p3.2 + (3 : Rat) / 4 * (p2.2 - p3.2) < p0.2)),
      if_neg (not_le.mpr (by linarith : p2.2 + (1 : Rat) / 2 * (p1.2 - p2.2) < p0.2)),
      if_neg (not_le.mpr (by linarith : p1.2 + (1 : Rat) / 4 * (p0.2 - p1.2) < p0.2)),
      if_neg (not_le.mpr (by linarith : p3.2 + (3 : Rat) / 4 * (p2.2 - p3.2) < p1.2)),
      if_neg (not_le.mpr (by linarith : p2.2 + (1 : Rat) / 2 * (p1.2 - p2.2) < p1.2)),
      if_pos (by linarith : p1.2 ≤ p1.2 + (1 : Rat) / 4 * (p0.2 - p1.2)),
      if_neg (not_le.mpr (by linarith : p3.2 + (3 : Rat) / 4 * (p2.2 - p3.2) < p2.2)),
      if_pos (by linarith : p2.2 ≤ p2.2 + (1 : Rat) / 2 * (p1.2 - p2.2)),
      if_pos (by linarith : p3.2 ≤ p3.2 + (3 : Rat) / 4 * (p2.2 - p3.2))]
    simp

theorem merge_sort_eval_four (le : α → α → Bool) (a b c d : α) :
    merge_sort le [a, b, c, d] = _merge le (merge_sort le [a, b]) (merge_sort le [c, d]) := by
  rw [merge_sort]
  norm_num [List.take, List.drop]

theorem decide_str_le_true (s t : String) (h : s.toList ≤ t.toList) :
    (decide (s ≤ t)) = true :=
  decide_eq_true (String.le_iff_toList_le.mpr h)

/-- Four customers with one completed order each, lifetime values
40 > 30 > 20 > 10. -/
def exOrd8 (cid : String) (amt : Rat) : Order :=
  { order_id := cid, customer_id := cid, month := 1, product_category := "A",
    product_name := "p", quantity := 1, unit_price := amt, order_amount := amt,
    status := "completed" }

def exDf8 : List Order :=
  [exOrd8 "c1" 40, exOrd8 "c2" 30, exOrd8 "c3" 20, exOrd8 "c4" 10]

theorem customer_ltv_exDf8 :
    customer_ltv exDf8 = [("c1", 40), ("c2", 30), ("c3", 20), ("c4", 10)] := by
  have hc : completedOf exDf8 = exDf8 := by decide
  have hk : drop_duplicates (List.map (fun o => o.customer_id) exDf8)
      = ["c1", "c2", "c3", "c4"] := by decide
  have h12 := decide_str_le_true "c1" "c2" (by decide)
  have h34 := decide_str_le_true "c3" "c4" (by decide)
  have h13 := decide_str_le_true "c1" "c3" (by decide)
  have h23 := decide_str_le_true "c2" "c3" (by decide)
  have hf1 : List.filter (fun o => decide (o.customer_id = "c1")) exDf8
      = [exOrd8 "c1" 40] := by decide
  have hf2 : List.filter (fun o => decide (o.customer_id = "c2")) exDf8
      = [exOrd8 "c2" 30] := by decide
  have hf3 : List.filter (fun o => decide (o.customer_id = "c3")) exDf8
      = [exOrd8 "c3" 20] := by decide
  have hf4 : List.filter (fun o => decide (o.customer_id = "c4")) exDf8
      = [exOrd8 "c4" 10] := by decide
  rw [customer_ltv, hc, groupSumBy, hk, merge_sort_eval_four]
  simp only [merge_sort_pair, h12, h34, if_true]
  rw [show _merge (fun a b : String => decide (a ≤ b)) ["c1", "c2"] ["c3", "c4"]
      = ["c1", "c2", "c3", "c4"] by simp [_merge]; decide]
  simp only [List.map_cons, List.map_nil, hf1, hf2, hf3, hf4]
  rw [show ([(exOrd8 "c1" 40).order_amount] : List Rat).sum = 40 by simp [exOrd8],
    show ([(exOrd8 "c2" 30).order_amount] : List Rat).sum = 30 by simp [exOrd8],
    show ([(exOrd8 "c3" 20).order_amount] : List Rat).sum = 20 by simp [exOrd8],
    show ([(exOrd8 "c4" 10).order_amount] : List Rat).sum = 10 by simp [exOrd8]]
  rw [sort_values_desc, merge_sort_eval_four]
  norm_num [merge_sort_pair, _merge]
  simp [_merge]

theorem customer_ltv_nil : customer_ltv ([] : List Order) = [] := by
  rw [customer_ltv, completedOf]
  simp [groupSumBy, drop_duplicates, drop_duplicates_go, merge_sort_nil, sort_values_desc]

/-- Witness for C8: an empty dataset yields the empty segmentation without
error; four customers with distinct lifetime values land one per tier. -/
theorem segmentation_spec_witness :
    segmentation ([] : List Order) = Except.ok []
    ∧ segmentation exDf8
        = Except.ok [("Bronze", 1), ("Silver", 1), ("Gold", 1), ("Platinum", 1)] :=
  ⟨(segmentation_spec []).1 (by rw [customer_ltv_nil]; simp),
   (segmentation_spec exDf8).2 (by rw [customer_ltv_exDf8]; rfl)
     (by rw [customer_ltv_exDf8]; norm_num [List.nodup_cons])⟩

/-- Four customers, each with one completed order of amount 5: their
lifetime values are distinct customers but all equal in value. -/
def exDf10 : List Order :=
  [exOrd8 "c1" 5, exOrd8 "c2" 5, exOrd8 "c3" 5, exOrd8 "c4" 5]

theorem customer_ltv_exDf10 :
    customer_ltv exDf10 = [("c4", 5), ("c3", 5), ("c2", 5), ("c1", 5)] := by
  have hc : completedOf exDf10 = exDf10 := by decide
  have hk : drop_duplicates (List.map (fun o => o.customer_id) exDf10)
      = ["c1", "c2", "c3", "c4"] := by decide
  have h12 := decide_str_le_true "c1" "c2" (by decide)
  have h34 := decide_str_le_true "c3" "c4" (by decide)
  have hf1 : List.filter (fun o => decide (o.customer_id = "c1")) exDf10
      = [exOrd8 "c1" 5] := by decide
  have hf2 : List.filter (fun o => decide (o.customer_id = "c2")) exDf10
      = [exOrd8 "c2" 5] := by decide
  have hf3 : List.filter (fun o => decide (o.customer_id = "c3")) exDf10
      = [exOrd8 "c3" 5] := by decide
  have hf4 : List.filter (fun o => decide (o.customer_id = "c4")) exDf10
      = [exOrd8 "c4" 5] := by decide
  rw [customer_ltv, hc, groupSumBy, hk, merge_sort_eval_four]
  simp only [merge_sort_pair, h12, h34, if_true]
  rw [show _merge (fun a b : String => decide (a ≤ b)) ["c1", "c2"] ["c3", "c4"]
      = ["c1", "c2", "c3", "c4"] by simp [_merge]; decide]
  simp only [List.map_cons, List.map_nil, hf1, hf2, hf3, hf4]
  rw [show ([(exOrd8 "c1" 5).order_amount] : List Rat).sum = 5 by simp [exOrd8],
    show ([(exOrd8 "c2" 5).order_amount] : List Rat).sum = 5 by simp [exOrd8],
    show ([(exOrd8 "c3" 5).order_amount] : List Rat).sum = 5 by simp [exOrd8],
    show ([(exOrd8 "c4" 5).order_amount] : List Rat).sum = 5 by simp [exOrd8]]
  rw [sort_values_desc, merge_sort_eval_four]
  norm_num [merge_sort_pair, _merge]

/-- Claim C10: on a cleaned dataset with 4 distinct customers whose lifetime
values are all equal, the customer count passes the `>= 4` guard, but
`pd.qcut` computes five identical bin edges and raises
`ValueError: Bin edges must be unique`; `run_analytics_and_exports` does not
catch it, so the run fails instead of returning a segmentation. -/
theorem segmentation_equal_ltv_raises :
    segmentation exDf10 = Except.error "Bin edges must be unique" := by
  have hsort : sortRat [(5 : Rat), 5, 5, 5] = [5, 5, 5, 5] :=
    sortRat_eq_of_sorted (by norm_num [List.pairwise_cons]) (List.Perm.refl _)
  have hq0 : quantileLin [(5 : Rat), 5, 5, 5] 0 4 = 5 := by
    rw [quantileLin, hsort]
    norm_num [qAt]
  have hq1 : quantileLin [(5 : Rat), 5, 5, 5] 1 4 = 5 := by
    rw [quantileLin, hsort]
    norm_num [qAt]
  have hq2 : quantileLin [(5 : Rat), 5, 5, 5] 2 4 = 5 := by
    rw [quantileLin, hsort]
    norm_num [qAt]
  have hq3 : quantileLin [(5 : Rat), 5, 5, 5] 3 4 = 5 := by
    rw [quantileLin, hsort]
    norm_num [qAt]
  have hq4 : quantileLin [(5 : Rat), 5, 5, 5] 4 4 = 5 := by
    rw [quantileLin, hsort]
    norm_num [qAt]
  rw [segmentation, customer_ltv_exDf10, if_pos (by norm_num)]
  simp only [List.map_cons, List.map_nil]
  rw [qcut4, hq0, hq1, hq2, hq3, hq4, if_neg (by simp)]
